import Mathlib

/-!
Verification of the whitakers_words morphological analyzer.

The repository holds two generations of the parser:
 * `parse.py`  (old parser; namespace `P1` below), and
 * `parser.py` (new parser; namespace `P2` below).

Python strings are embedded through their character lists; Python
exceptions are made explicit with `Except String`, the error message
naming the Python exception class that would be raised.  Python `dict`s
(which preserve insertion order) are embedded as association lists with
in-place update.
-/

namespace WW

/-- Python-style character-list string helpers: `s[:-n]` (drop the last
`n` characters, empty result when `n ≥ |s|`). -/
def strDropRight (s : String) (n : Nat) : String := ⟨s.data.take (s.data.length - n)⟩

/-- Python `s[n:]`. -/
def strDropLeft (s : String) (n : Nat) : String := ⟨s.data.drop n⟩

/-- Python `s[-n:]` for `n ≥ 1` (the last `n` characters). -/
def strTakeRight (s : String) (n : Nat) : String := ⟨s.data.drop (s.data.length - n)⟩

/-- Python `s[a:b]` slice for `0 ≤ a ≤ b`. -/
def strSlice (s : String) (a b : Nat) : String := ⟨(s.data.drop a).take (b - a)⟩

/-- Python `s.endswith(t)`. -/
def endsW (s t : String) : Bool :=
  decide (t.data.length ≤ s.data.length) &&
    decide (s.data.drop (s.data.length - t.data.length) = t.data)

/-- Python `s.startswith(t)`. -/
def startsW (s t : String) : Bool := decide (s.data.take t.data.length = t.data)

/-- Python `len(s)`. -/
def strLen (s : String) : Nat := s.data.length

/-- Python `text.isalpha()` (true only for nonempty all-alphabetic text). -/
def pyIsAlpha (s : String) : Bool := decide (s.data ≠ []) && s.data.all Char.isAlpha

/-- Python list indexing `l[i]` for a nonnegative index: `none` models the
`IndexError` case. -/
def pyGet (l : List α) (i : Nat) : Option α := l[i]?

/-- Python `list.index(a)`: the index of the first occurrence, raising
`ValueError` when the element is absent. -/
def pyIndex [DecidableEq α] : List α → α → Except String Nat
  | [], _ => .error "ValueError"
  | x :: xs, a =>
    if x = a then .ok 0
    else match pyIndex xs a with
      | .ok i => .ok (i + 1)
      | .error e => .error e

/-- Insertion-ordered association-list lookup (Python `d[k]` / `k in d`). -/
def alookup [DecidableEq α] : List (α × β) → α → Option β
  | [], _ => none
  | p :: rest, k => if p.1 = k then some p.2 else alookup rest k

namespace P1

/-- A dictionary headword (`dict_ids` entry): identifier, part of speech,
principal parts and senses. -/
structure DictEntry where
  id : Nat
  pos : String
  parts : List String
  senses : List String
deriving DecidableEq

/-- A stem record (`stems` entry): orthography, part of speech, category
code `n`, form marker, owning headword id, free-form properties. -/
structure Stem where
  orth : String
  pos : String
  n : List Int
  form : String
  wid : Nat
  props : List String
deriving DecidableEq

/-- An ending record (`inflects` entry): ending string, part of speech,
category code `n`, encoded feature-form string, identifier. -/
structure Inflect where
  ending : String
  pos : String
  n : List Int
  form : String
  iid : Nat
deriving DecidableEq

/-- A `uniques` entry (irregular full form), carried opaquely by `parse`. -/
structure Unique where
  orth : String
  pos : String
  senses : List String
deriving DecidableEq

/-- An affix record (`addons` entry): orthography and position marker. -/
structure Addon where
  orth : String
  pos : String
deriving DecidableEq

/-- The `addons` mapping; `none` models a key absent from the mapping
(the source tests e.g. `'tackons' in self.addons`). -/
structure Addons where
  tackons : Option (List Addon)
  packons : Option (List Addon)
  not_packons : Option (List Addon)
  prefixes : Option (List Addon)
  suffixes : Option (List Addon)
deriving DecidableEq

/-- The data loaded by `Parser.__init__` (wordlist, wordkeys, stems,
uniques, inflects, addons), injectable through kwargs. -/
structure PData where
  wordlist : List (Option DictEntry)
  wordkeys : List String
  stems : List (String × List Stem)
  uniques : List (String × List Unique)
  inflects : List (String × List (String × List Inflect))
  addons : Addons

/-- A matched stem as built by `match_stems_inflections`: the stem record,
its accumulated inflections, and the enclitic set afterwards (`''` = none). -/
structure MatchedStem where
  st : Stem
  infls : List Inflect
  encl : Option Addon
deriving DecidableEq

/-- One entry of `analyze_forms`' result list
(`{'w': dict_word, 'enclitic': ..., 'stems': [...]}`). -/
structure RegResult where
  w : DictEntry
  enclitic : Option Addon
  stems : List MatchedStem
deriving DecidableEq

/-- One entry of `parse`'s `parse_result` list: either a unique entry
(`{'w': unique_form, 'enclitic': ..., 'stems': []}`) or a regular entry. -/
inductive ParseEntry where
  | uniqueE : Unique → Option Addon → ParseEntry
  | regularE : RegResult → ParseEntry
deriving DecidableEq

/-- A `{'base': ..., 'encl': ...}` record of `split_form_enclitic`. -/
structure SplitForm where
  base : String
  encl : Option Addon
deriving DecidableEq

/-- The noun branch's
`infl['form'][-1] == stem['form'][0] or infl['form'][-1] == 'C'`
(parse.py line 151); both indexings are evaluated, so either empty string
raises `IndexError`. -/
def checkMatchNounForm (stem : Stem) (infl : Inflect) : Except String Bool :=
  match infl.form.data.getLast? with
  | none => .error "IndexError"
  | some flast =>
    match stem.form.data.head? with
    | none => .error "IndexError"
    | some s0 => .ok (decide (flast = s0) || decide (flast = 'C'))

/-- `Parser.check_match` (parse.py lines 134-162).  Python falsy returns
(`None`, `0`) are folded to `false`; the uncaught `IndexError`s that
`wrd['parts'][-1]` / `wrd['parts'][0]` / `infl['n'][0]` /
`infl['form'][-1]` / `stem['form'][0]` would raise are `.error`. -/
def checkMatch (d : PData) (stem : Stem) (infl : Inflect) : Except String Bool :=
  if infl.pos ≠ stem.pos then
    if infl.pos = "VPAR" ∧ stem.pos = "V" then
      match WW.pyGet d.wordlist stem.wid with
      | none => .ok false
      | some none => .ok false
      | some (some wrd) =>
        if WW.strSlice infl.form 8 12 = "PERF" then
          match wrd.parts.getLast? with
          | none => .error "IndexError"
          | some p => .ok (decide (stem.orth = p))
        else
          match wrd.parts.head? with
          | none => .error "IndexError"
          | some p => .ok (decide (stem.orth = p))
    else .ok false
  else if stem.pos = "N" then
    if infl.n = stem.n then
      checkMatchNounForm stem infl
    else
      match infl.n.head? with
      | none => .error "IndexError"
      | some i0 =>
        match stem.n.head? with
        | none => .error "IndexError"
        | some s0 =>
          match infl.n.getLast? with
          | none => .error "IndexError"
          | some ilast =>
            if i0 = s0 ∧ ilast = 0 then checkMatchNounForm stem infl
            else .ok false
  else if stem.pos = "ADV" then
    if stem.form = "X" then
      match WW.pyGet d.wordlist stem.wid with
      | none => .ok false
      | some none => .ok false
      | some (some wrd) => .ok (wrd.parts.contains stem.orth)
    else .ok (decide (stem.form = infl.form))
  else
    if stem.n.length = 0 then .ok false
    else
      match infl.n.head? with
      | none => .error "IndexError"
      | some i0 =>
        match stem.n.head? with
        | none => .error "IndexError"
        | some s0 => .ok (decide (i0 = s0))

/-- Append `infl_cand` to the inflections of the first list entry whose
stem has the given `wid` (the `break` in parse.py lines 119-124). -/
def markFirstWid : List MatchedStem → Nat → Inflect → List MatchedStem
  | [], _, _ => []
  | ms :: rest, wid, infl =>
    if ms.st.wid = wid then { ms with infls := ms.infls ++ [infl] } :: rest
    else ms :: markFirstWid rest wid infl

/-- The `matched_stems` insertion of `match_stems_inflections`
(parse.py lines 117-130): keyed by stem orthography; under one
orthography, the first entry with the same `wid` accumulates the
inflection, otherwise a new entry is appended. -/
def insertMatched (m : List (String × List MatchedStem)) (stem_cand : Stem)
    (infl_cand : Inflect) : List (String × List MatchedStem) :=
  if (m.any (fun p => decide (p.1 = stem_cand.orth))) then
    m.map (fun p =>
      if p.1 = stem_cand.orth then
        (p.1,
          if p.2.any (fun ms => decide (ms.st.wid = stem_cand.wid)) then
            markFirstWid p.2 stem_cand.wid infl_cand
          else
            p.2 ++ [{ st := stem_cand, infls := [infl_cand], encl := none }])
      else p)
  else m ++ [(stem_cand.orth, [{ st := stem_cand, infls := [infl_cand], encl := none }])]

/-- The inner loop `for infl_cand in infl_lemma` of
`match_stems_inflections` (parse.py lines 115-130) for one stem candidate. -/
def msiInfls (d : PData) (stem_cand : Stem) :
    List Inflect → List (String × List MatchedStem) →
    Except String (List (String × List MatchedStem))
  | [], m => .ok m
  | infl_cand :: rest, m => do
    let b ← checkMatch d stem_cand infl_cand
    msiInfls d stem_cand rest (if b then insertMatched m stem_cand infl_cand else m)

/-- The loop `for stem_cand in stem_list` of `match_stems_inflections`
(parse.py lines 114-130). -/
def msiStems (d : PData) (grp : List Inflect) :
    List Stem → List (String × List MatchedStem) →
    Except String (List (String × List MatchedStem))
  | [], m => .ok m
  | stem_cand :: rest, m => do
    let m' ← msiInfls d stem_cand grp m
    msiStems d grp rest m'

/-- `Parser.match_stems_inflections` (parse.py lines 99-132): for each
inflection group, strip `infl_lemma[0]['ending']` from the form, look the
stripped string up in the stems table, and merge the congruent pairs.
`infl_lemma[0]` on an empty group raises `IndexError`. -/
def matchStemsInflections (d : PData) (form : String) :
    List (List Inflect) → List (String × List MatchedStem) →
    Except String (List (String × List MatchedStem))
  | [], m => .ok m
  | grp :: rest, m => do
    match grp.head? with
    | none => .error "IndexError"
    | some infl0 => do
      let stem_lemma :=
        if infl0.ending.data.length ≠ 0 then WW.strDropRight form infl0.ending.data.length
        else form
      let m' ←
        match WW.alookup d.stems stem_lemma with
        | none => .ok m
        | some stem_list => msiStems d grp stem_list m
      matchStemsInflections d form rest m'

/-- `Parser.remove_extra_infls` (parse.py lines 284-293): iterating a copy
and calling `list.remove` deletes every inflection whose part of speech
equals `remove_type`, preserving the order of the rest. -/
def removeExtraInfls (stem : MatchedStem) (remove_type : String) : MatchedStem :=
  { stem with infls := stem.infls.filter (fun i => decide (i.pos ≠ remove_type)) }

/-- The verb / participle disambiguation on the creation path of
`Parser.lookup_stems` (parse.py lines 196-208):
`dict_word['parts'].index(stem['st']['orth'])` raises `ValueError` when
the orthography is not among the principal parts. -/
def disambiguateVerb (dict_word : DictEntry) (stem : MatchedStem) :
    Except String MatchedStem :=
  if dict_word.pos = "V" then do
    let i ← WW.pyIndex dict_word.parts stem.st.orth
    if i = 3 then pure (removeExtraInfls stem "V")
    else pure (removeExtraInfls stem "VPAR")
  else pure stem

/-- The merge branch of `lookup_stems` (parse.py lines 178-192): append
the stem to the first result with the same dictionary id unless an equal
stem is already recorded there. -/
def addStemToResult : List RegResult → Nat → MatchedStem → List RegResult
  | [], _, _ => []
  | r :: rest, id_, stem =>
    if r.w.id = id_ then
      (if r.stems.contains stem then r else { r with stems := r.stems ++ [stem] }) :: rest
    else r :: addStemToResult rest id_ stem

/-- One iteration of `Parser.lookup_stems`' stem loop (parse.py
lines 169-215). -/
def lookupStemsStep (d : PData) (results : List RegResult) (stem : MatchedStem) :
    Except String (List RegResult) :=
  match WW.pyGet d.wordlist stem.st.wid with
  | none => .ok results
  | some none => .ok results
  | some (some dict_word) =>
    if results.any (fun r => decide (r.w.id = dict_word.id)) then
      .ok (addStemToResult results dict_word.id stem)
    else do
      let stem' ← disambiguateVerb dict_word stem
      pure (results ++ [{ w := dict_word, enclitic := stem'.encl, stems := [stem'] }])

/-- The flattened stem loop of `lookup_stems`. -/
def lookupStemsList (d : PData) :
    List MatchedStem → List RegResult → Except String (List RegResult)
  | [], results => .ok results
  | stem :: rest, results => do
    let results' ← lookupStemsStep d results stem
    lookupStemsList d rest results'

/-- `Parser.lookup_stems` (parse.py lines 164-216); the iteration over
`match_stems.values()` flattens the per-orthography stem lists in
insertion order. -/
def lookupStems (d : PData) (match_stems : List (String × List MatchedStem)) :
    Except String (List RegResult) :=
  lookupStemsList d (match_stems.flatMap (fun p => p.2)) []

/-- The tackon loop of `Parser.split_form_enclitic` (parse.py
lines 224-230): one entry per matching tackon suffix, skipped entirely
when the text is the literal `"est"`; no empty-base guard here. -/
def tackonLoop (s : String) : List Addon → List SplitForm
  | [] => []
  | e :: rest =>
    if WW.endsW s e.orth then
      if s ≠ "est" then
        { base := WW.strDropRight s e.orth.data.length, encl := some e } :: tackonLoop s rest
      else tackonLoop s rest
    else tackonLoop s rest

/-- The packon / not-packon loop of `split_form_enclitic` (parse.py
lines 239-246): scan for a matching suffix; a match leaving an empty base
is skipped (without stopping the scan), the first match with a nonempty
base is kept and the loop breaks. -/
def packLoop (s : String) : List Addon → List SplitForm
  | [] => []
  | e :: rest =>
    if WW.endsW s e.orth then
      let base := WW.strDropRight s e.orth.data.length
      if base ≠ "" then [{ base := base, encl := some e }]
      else packLoop s rest
    else packLoop s rest

/-- `Parser.split_form_enclitic` (parse.py lines 218-248). -/
def splitFormEnclitic (d : PData) (s : String) : List SplitForm :=
  let result := [{ base := s, encl := none }]
  let result := result ++ tackonLoop s (d.addons.tackons.getD [])
  let lst := if WW.startsW s "qu" then d.addons.packons else d.addons.not_packons
  result ++ packLoop s (lst.getD [])

/-- The suffix-length loop of `Parser.analyze_forms` (parse.py
lines 76-80): for each length `1 ≤ l < min(8, len(form))`, append the
inflection group registered under the exact length-and-suffix key. -/
def viableSuffixGroups (d : PData) (form : String) : List (List Inflect) :=
  (List.range' 1 (min 8 (WW.strLen form) - 1)).foldl
    (fun acc l =>
      match WW.alookup d.inflects (Nat.repr l) with
      | none => acc
      | some bylen =>
        match WW.alookup bylen (WW.strTakeRight form l) with
        | none => acc
        | some grp => acc ++ [grp])
    []

/-- Set `stem['encl'] = word['encl']` on every matched stem (parse.py
lines 85-87). -/
def setEncl (m : List (String × List MatchedStem)) (e : Option Addon) :
    List (String × List MatchedStem) :=
  m.map (fun p => (p.1, p.2.map (fun ms => { ms with encl := e })))

/-- The direct-matching pipeline of `Parser.analyze_forms` (parse.py
lines 64-93) without the reduction fallback: candidate generation
(an undeclined full form indexes `self.inflects["0"]['']` unguarded, so a
missing key raises `KeyError`), congruence matching, enclitic marking and
dictionary lookup. -/
def analyzeFormsCore (d : PData) (w : SplitForm) : Except String (List RegResult) := do
  let form := w.base
  let viable0 ←
    if d.wordkeys.contains form then
      match WW.alookup d.inflects "0" with
      | none => Except.error "KeyError"
      | some bylen =>
        match WW.alookup bylen "" with
        | none => Except.error "KeyError"
        | some grp => Except.ok [grp]
    else Except.ok []
  let viable := viable0 ++ viableSuffixGroups d form
  let match_stems ← matchStemsInflections d form viable []
  let match_stems := setEncl match_stems w.encl
  lookupStems d match_stems

/-- `Parser.analyze_forms` with `reduced=True` (parse.py lines 92-97):
return the direct results if any, otherwise the empty list — the reducer
is never re-entered. -/
def analyzeFormsTrue (d : PData) (w : SplitForm) : Except String (List RegResult) := do
  let forms ← analyzeFormsCore d w
  if forms.length ≠ 0 then pure forms else pure []

/-- The front-stripping loop of `Parser.reduce` (parse.py lines 256-260):
remove the first matching table entry from the front, or nothing. -/
def stripFront : List Addon → String → String
  | [], s => s
  | p :: rest, s =>
    if WW.startsW s p.orth then WW.strDropLeft s p.orth.data.length
    else stripFront rest s

/-- The back-stripping loop of `Parser.reduce` (parse.py lines 262-267):
remove the first matching table entry from the back, or nothing. -/
def stripBack : List Addon → String → String
  | [], s => s
  | e :: rest, s =>
    if WW.endsW s e.orth then WW.strDropRight s e.orth.data.length
    else stripBack rest s

/-- `Parser.reduce` (parse.py lines 250-282).  The prefix/suffix entries
appended to `out` in the stripping loops are discarded when line 271
reassigns `out = self.analyze_forms(option, True)`, so only the stripped
base matters; a reduced result with no nonempty stem list is replaced by
the empty list. -/
def reduceF (d : PData) (w : SplitForm) : Except String (List RegResult) := do
  let s := w.base
  let s := stripFront (d.addons.prefixes.getD []) s
  let s := stripBack (d.addons.suffixes.getD []) s
  let out ← analyzeFormsTrue d { w with base := s }
  let found_new_match := out.any (fun r => decide (r.stems.length > 0))
  if out.length ≠ 0 ∧ ¬ found_new_match then pure [] else pure out

/-- `Parser.analyze_forms` (parse.py lines 64-97) with its `reduced`
flag. -/
def analyzeForms (d : PData) (w : SplitForm) : Bool → Except String (List RegResult)
  | true => analyzeFormsTrue d w
  | false => do
    let forms ← analyzeFormsCore d w
    if forms.length ≠ 0 then pure forms else reduceF d w

/-- The `for word in words` loop of `Parser.parse` (parse.py lines 52-60):
a unique base appends its unique forms to `parse_result`, while a regular
base reassigns `parse_result` to `self.analyze_forms(word)`. -/
def parseWords (d : PData) :
    List SplitForm → List ParseEntry → Except String (List ParseEntry)
  | [], parse_result => .ok parse_result
  | word :: rest, parse_result =>
    match WW.alookup d.uniques word.base with
    | some unique_forms =>
      parseWords d rest
        (parse_result ++ unique_forms.map (fun u => ParseEntry.uniqueE u word.encl))
    | none => do
      let forms ← analyzeForms d word false
      parseWords d rest (forms.map ParseEntry.regularE)

/-- `Parser.parse` (parse.py lines 37-62) up to the `parse_result` handed
to the out-of-scope output formatter; non-alphabetic input raises
`WordsException`. -/
def parseResult (d : PData) (text : String) : Except String (List ParseEntry) := do
  if ¬ WW.pyIsAlpha text then Except.error "WordsException"
  else parseWords d (splitFormEnclitic d text) []

end P1

namespace P2

/-- A dictionary headword as used by parser.py (`wordlist` entry). -/
structure DictEntry where
  id : Nat
  pos : String
  parts : List String
  senses : List String
deriving DecidableEq

/-- A stem record (parser.py `Stem`). -/
structure Stem where
  orth : String
  pos : String
  n : List Int
  form : String
  wid : Nat
  props : List String
deriving DecidableEq

/-- An ending record (parser.py `Inflect`); its `form` is a sequence of
feature tokens. -/
structure Inflect where
  ending : String
  pos : String
  n : List Int
  form : List String
  iid : Nat
deriving DecidableEq

/-- A `uniques` entry (parser.py `Unique`). -/
structure Unique where
  orth : String
  pos : String
  n : List Int
  form : List String
  senses : List String
deriving DecidableEq

/-- Modelled from the spec: the feature-enum decoding tables
(`enums.get_enum_value`, absent from src/) resolve a feature-kind name and
a token to an enum member; distinct (kind, token) pairs are distinct
members, so a member is embedded as the pair itself. -/
structure EnumValue where
  kind : String
  token : String
deriving DecidableEq

/-- Modelled from the spec: `get_enum_value(kind, token)`. -/
def getEnumValue (kind token : String) : EnumValue := ⟨kind, token⟩

/-- The per-part-of-speech ordered feature-slot lists of
`Inflection.analyse_features` (parser.py lines 29-46). -/
def featureSlots (wordType : String) : Option (List String) :=
  if wordType = "N" then some ["Case", "Number", "Gender"]
  else if wordType = "NUM" then some ["Case", "Number", "Gender", "NumeralType"]
  else if wordType = "PRON" then some ["Case", "Number", "Gender", "PronounType"]
  else if wordType = "ADJ" then some ["Case", "Number", "Gender", "Degree"]
  else if wordType = "V" then some ["Tense", "Voice", "Mood", "Person", "Number"]
  else if wordType = "VPAR" then some ["Case", "Number", "Gender", "Tense", "Voice"]
  else if wordType = "ADV" then some ["Degree"]
  else none

/-- Python dict assignment `d[k] = v`: overwrite in place, else append. -/
def assocSet (m : List (String × EnumValue)) (k : String) (v : EnumValue) :
    List (String × EnumValue) :=
  if m.any (fun p => decide (p.1 = k)) then
    m.map (fun p => if p.1 = k then (k, v) else p)
  else m ++ [(k, v)]

/-- `Inflection.analyse_features` (parser.py lines 29-48): fill the slots
of the part of speech with the leading feature tokens in order. -/
def analyseFeatures (wordType : String) (form : List String) :
    List (String × EnumValue) :=
  match featureSlots wordType with
  | none => []
  | some lst =>
    (lst.zip (form.take lst.length)).foldl
      (fun feats p => assocSet feats p.1 (getEnumValue p.1 p.2)) []

/-- `Inflection.override_features` (parser.py lines 50-52): a noun stem
with a nonempty form marker forces the Gender feature to the gender
denoted by the marker's first character (`Gender[str(stem["form"][0])]`,
modelled from the spec as the decoding of that character). -/
def overrideFeatures (wordType : String) (stem : Stem)
    (feats : List (String × EnumValue)) : List (String × EnumValue) :=
  if wordType = "N" ∧ stem.form ≠ "" then
    match stem.form.data with
    | [] => feats
    | c :: _ => assocSet feats "Gender" (getEnumValue "Gender" c.toString)
  else feats

/-- The decoded `Inflection` view object (parser.py lines 15-24); its
`wordType` is embedded as the part-of-speech string itself (the WordType
enum is modelled from the spec, `enums` being absent from src/). -/
structure Inflection where
  wordType : String
  category : List Int
  stem : String
  affix : String
  features : List (String × EnumValue)
  id : Nat
deriving DecidableEq

/-- `Inflection.__init__` (parser.py lines 16-24). -/
def mkInflection (infl : Inflect) (stem : Stem) : Inflection :=
  { wordType := infl.pos
    category := infl.n
    stem := stem.orth
    affix := infl.ending
    features := overrideFeatures infl.pos stem (analyseFeatures infl.pos infl.form)
    id := infl.iid }

/-- `UniqueInflection.__init__` (parser.py lines 71-79); no `id` is set in
the source, embedded as 0 (never compared). -/
def mkUniqueInflection (u : Unique) : Inflection :=
  { wordType := u.pos
    category := u.n
    stem := u.orth
    affix := ""
    features := analyseFeatures u.pos u.form
    id := 0 }

/-- Python dict equality on the feature maps (key-value sets, order
ignored; the maps are built with unique keys). -/
def dictEqb (a b : List (String × EnumValue)) : Bool :=
  a.all (fun p => decide (WW.alookup b p.1 = some p.2)) &&
    b.all (fun p => decide (WW.alookup a p.1 = some p.2))

/-- `Inflection.__eq__` (parser.py lines 60-68): value equality on affix,
word type, category and features. -/
def inflEqb (a b : Inflection) : Bool :=
  decide (a.affix = b.affix) && decide (a.wordType = b.wordType) &&
    decide (a.category = b.category) && dictEqb a.features b.features

/-- A lexeme view object (parser.py `Lexeme` / `UniqueLexeme`); the
`unique` flag embeds the `isinstance(…, UniqueLexeme)` test. -/
structure Lexeme where
  id : Nat
  category : List Int
  roots : List String
  senses : List String
  wordType : String
  form : String
  props : List String
  unique : Bool
deriving DecidableEq

/-- `Lexeme.__init__` (parser.py lines 83-90). -/
def mkLexeme (stem : Stem) : Lexeme :=
  { id := stem.wid, category := stem.n, roots := [], senses := [],
    wordType := stem.pos, form := stem.form, props := stem.props, unique := false }

/-- `UniqueLexeme.__init__` (parser.py lines 97-102); `form` and `props`
are not set in the source, embedded as defaults (never read). -/
def mkUniqueLexeme (u : Unique) : Lexeme :=
  { id := 0, category := [], roots := [], senses := u.senses,
    wordType := u.pos, form := "", props := [], unique := true }

/-- An enclitic view object (parser.py `Enclitic`). -/
structure Enclitic where
  text : String
  position : List String
  senses : List String
  id : Nat
deriving DecidableEq

/-- An analysis (parser.py `Analysis`). -/
structure Analysis where
  lexeme : Lexeme
  root : String
  inflections : List Inflection
  enclitic : Option Enclitic
deriving DecidableEq

/-- A hypothesized segmentation (parser.py `Form`); the analyses dict is
an insertion-ordered map keyed by headword id. -/
structure Form where
  text : String
  analyses : List (Nat × Analysis)
  enclitic : Option Enclitic
deriving DecidableEq

/-- The top-level aggregate (parser.py `Word`). -/
structure Word where
  text : String
  forms : List Form
deriving DecidableEq

/-- Modelled from the spec: the injected read-only data layer
(`datalayer.DataLayer`, absent from src/) with `wordlist`, `wordkeys`,
`stems`, `uniques`, `inflects` and the precomputed `empty` mapping from a
part of speech to its zero-length endings. -/
structure DataLayer where
  wordlist : List (Option DictEntry)
  wordkeys : List String
  stems : List (String × List Stem)
  uniques : List (String × List Unique)
  inflects : List (String × List (String × List Inflect))
  empty : String → List Inflect

/-- The candidate-ending generation of `Form.analyse` (parser.py
lines 156-174): zero-length endings for every part of speech among the
stems spelled exactly like the text (when the text is a known full form),
then the endings registered under each suffix length from 1 to
`min(8, len(text)) - 1`.  The Python set of word types is embedded as the
deduplicated list of stem parts of speech (iteration order of a Python
set is unspecified; only the resulting collection matters). -/
def viableInflections (data : DataLayer) (text : String) : List Inflect :=
  let viable0 :=
    if data.wordkeys.contains text then
      match WW.alookup data.stems text with
      | none => []
      | some stem_list => ((stem_list.map (fun x => x.pos)).dedup).flatMap data.empty
    else []
  (List.range' 1 (min 8 (WW.strLen text) - 1)).foldl
    (fun acc l =>
      match WW.alookup data.inflects (Nat.repr l) with
      | none => acc
      | some bylen =>
        match WW.alookup bylen (WW.strTakeRight text l) with
        | none => acc
        | some grp => acc ++ grp)
    viable0

/-- The stem-spelling stripped from the text by one candidate ending
(parser.py lines 215-218). -/
def stripEnding (text : String) (infl : Inflect) : String :=
  if infl.ending ≠ "" then WW.strDropRight text infl.ending.data.length else text

/-- The `matched_stems` insertion of `Form.match_stems_inflections`
(parser.py lines 223-232): keyed by headword id; an inflection already
present by value under that id is not re-added. -/
def insertMatch (m : List (Nat × Analysis)) (word_id : Nat) (lex : Lexeme)
    (inflection : Inflection) : List (Nat × Analysis) :=
  if m.any (fun p => decide (p.1 = word_id)) then
    m.map (fun p =>
      if p.1 = word_id then
        (p.1,
          if p.2.inflections.any (fun i => inflEqb inflection i) then p.2
          else { p.2 with inflections := p.2.inflections ++ [inflection] })
      else p)
  else
    m ++ [(word_id,
      { lexeme := lex, root := "", inflections := [inflection], enclitic := none })]

/-- One candidate ending's pass of `Form.match_stems_inflections`
(parser.py lines 214-232): strip the ending, look the stem spelling up,
and merge every stem the matcher accepts. -/
def msiStep (check : Stem → Inflect → Bool) (data : DataLayer) (text : String)
    (m : List (Nat × Analysis)) (infl_cand : Inflect) : List (Nat × Analysis) :=
  match WW.alookup data.stems (stripEnding text infl_cand) with
  | none => m
  | some stem_list =>
    stem_list.foldl
      (fun m stem_cand =>
        if check stem_cand infl_cand then
          insertMatch m stem_cand.wid (mkLexeme stem_cand) (mkInflection infl_cand stem_cand)
        else m)
      m

/-- `Form.match_stems_inflections` (parser.py lines 204-233).  The
`Matcher(stem, infl).check()` congruence test lives in the absent
`matcher` module, so it is taken as a parameter. -/
def matchStemsInflections (check : Stem → Inflect → Bool) (data : DataLayer)
    (text : String) (viable : List Inflect) : List (Nat × Analysis) :=
  viable.foldl (msiStep check data text) []

/-- `Analysis.lookup_stem` (parser.py lines 128-132): the unguarded
`wordlist[self.lexeme.id]` raises `IndexError` out of range; a
present-but-empty slot leaves the analysis unchanged. -/
def lookupStem (wordlist : List (Option DictEntry)) (a : Analysis) :
    Except String Analysis :=
  match WW.pyGet wordlist a.lexeme.id with
  | none => .error "IndexError"
  | some none => .ok a
  | some (some dict_word) =>
    .ok { a with lexeme :=
      { a.lexeme with roots := dict_word.parts, senses := dict_word.senses } }

/-- The post-assembly loop of `Form.analyse` (parser.py lines 179-181):
set each analysis's enclitic and resolve its dictionary entry. -/
def setEnclLookup (wordlist : List (Option DictEntry)) (encl : Option Enclitic) :
    List (Nat × Analysis) → Except String (List (Nat × Analysis))
  | [] => .ok []
  | p :: rest => do
    let a ← lookupStem wordlist { p.2 with enclitic := encl }
    let rest' ← setEnclLookup wordlist encl rest
    .ok ((p.1, a) :: rest')

/-- Python `dict.update`: merge `new` into `old`, overwriting existing
keys in place and appending new keys in order. -/
def updateAnalyses (old : List (Nat × Analysis)) :
    List (Nat × Analysis) → List (Nat × Analysis)
  | [] => old
  | p :: rest =>
    updateAnalyses
      (if old.any (fun q => decide (q.1 = p.1)) then
        old.map (fun q => if q.1 = p.1 then p else q)
      else old ++ [p])
      rest

/-- `Form.analyse` (parser.py lines 152-186). -/
def formAnalyse (data : DataLayer) (check : Stem → Inflect → Bool) (f : Form) :
    Except String Form := do
  let viable := viableInflections data f.text
  let analyses := matchStemsInflections check data f.text viable
  let analyses ← setEnclLookup data.wordlist f.enclitic analyses
  if f.analyses.length ≠ 0 then
    pure { f with analyses := updateAnalyses f.analyses analyses }
  else
    pure { f with analyses := analyses }

/-- `Form.analyse_unique` (parser.py lines 144-150): the first unique goes
in under key 0, later ones append to `self.analyses[0]` (a `KeyError`
would escape if key 0 were missing from a nonempty map). -/
def analyseUnique (f : Form) (u : Unique) : Except String Form :=
  if f.analyses.length ≠ 0 then
    match WW.alookup f.analyses 0 with
    | none => .error "KeyError"
    | some a =>
      .ok { f with analyses :=
        f.analyses.map (fun p =>
          if p.1 = 0 then
            (p.1, { a with inflections := a.inflections ++ [mkUniqueInflection u] })
          else p) }
  else
    .ok { f with analyses :=
      [(0, { lexeme := mkUniqueLexeme u, root := "",
             inflections := [mkUniqueInflection u], enclitic := none })] }

/-- The unique loop of `Word.analyse` (parser.py lines 246-248). -/
def applyUniques (data : DataLayer) (f : Form) : Except String Form :=
  match WW.alookup data.uniques f.text with
  | none => .ok f
  | some unique_forms => unique_forms.foldlM analyseUnique f

/-- `Form.filter_analysis` (parser.py lines 192-202): an enclitic-bearing
analysis survives when the enclitic's leading position marker is the
wildcard, `PACK`, or the lexeme's word type (`position[0]` on an empty
position list raises `IndexError`); otherwise the lexeme must have
resolved roots or be a unique lexeme. -/
def filterAnalysis (a : Analysis) : Except String Bool :=
  match a.enclitic with
  | some enclitic =>
    match enclitic.position.head? with
    | none => .error "IndexError"
    | some p0 => .ok (decide (p0 = "X") || decide (p0 = "PACK") || decide (p0 = a.lexeme.wordType))
  | none => .ok (decide (a.lexeme.roots.length ≠ 0) || a.lexeme.unique)

/-- The dict-filter of `Form.filter_good_analyses` (parser.py
lines 188-190). -/
def filterAnalysesList : List (Nat × Analysis) → Except String (List (Nat × Analysis))
  | [] => .ok []
  | p :: rest => do
    let b ← filterAnalysis p.2
    let rest' ← filterAnalysesList rest
    .ok (if b then p :: rest' else rest')

/-- One form's pass of `Word.analyse` (parser.py lines 245-253):
uniques, regular analysis, and (when filtering) the per-form filter. -/
def processForm (data : DataLayer) (check : Stem → Inflect → Bool)
    (apply_filter : Bool) (f : Form) : Except String Form := do
  let f ← applyUniques data f
  let f ← formAnalyse data check f
  if apply_filter then do
    let kept ← filterAnalysesList f.analyses
    pure { f with analyses := kept }
  else pure f

/-- The form loop of `Word.analyse`. -/
def processForms (data : DataLayer) (check : Stem → Inflect → Bool)
    (apply_filter : Bool) : List Form → Except String (List Form)
  | [] => .ok []
  | f :: rest => do
    let f' ← processForm data check apply_filter f
    let rest' ← processForms data check apply_filter rest
    .ok (f' :: rest')

/-- `Word.analyse` (parser.py lines 244-258), including
`filter_good_forms`. -/
def wordAnalyse (data : DataLayer) (check : Stem → Inflect → Bool)
    (apply_filter : Bool) (w : Word) : Except String Word := do
  let forms ← processForms data check apply_filter w.forms
  pure { w with forms :=
    if apply_filter then forms.filter (fun f => decide (f.analyses.length ≠ 0))
    else forms }

/-- `Word.get_analyses` (parser.py lines 286-287). -/
def getAnalyses (w : Word) : List Analysis :=
  w.forms.flatMap (fun f => f.analyses.map Prod.snd)

/-- One form's surviving analyses, computed independently of every other
form (the right-hand side of claim C3's union). -/
def survivingAnalyses (data : DataLayer) (check : Stem → Inflect → Bool)
    (f : Form) : Except String (List Analysis) := do
  let f' ← processForm data check true f
  pure (f'.analyses.map Prod.snd)

/-- `mapM` of `survivingAnalyses` over the forms, written out. -/
def survivingLists (data : DataLayer) (check : Stem → Inflect → Bool) :
    List Form → Except String (List (List Analysis))
  | [] => .ok []
  | f :: rest => do
    let l ← survivingAnalyses data check f
    let rest' ← survivingLists data check rest
    .ok (l :: rest')

end P2

/-- An inflection is represented under a headword id in the analyses map:
some entry with that key holds it, or holds an ending equal to it by
value. -/
def reprIn (m : List (Nat × P2.Analysis)) (wid : Nat) (x : P2.Inflection) : Prop :=
  ∃ p ∈ m, p.1 = wid ∧ ∃ y ∈ p.2.inflections, (y = x ∨ P2.inflEqb x y = true)

/-! Concrete fixtures: small injected data sets (the parsers load their
tables through kwargs / the data layer, so any such tables are valid
inputs) used to evaluate the embedded code at specific points. -/

/-- A first-conjugation present-tense ending `-o`. -/
def inflO : P1.Inflect :=
  { ending := "o", pos := "V", n := [1], form := "PRES ACTIVE IND 1 S", iid := 1 }

/-- A verb stem `am-` of headword 0. -/
def stemAm : P1.Stem :=
  { orth := "am", pos := "V", n := [1, 1], form := "", wid := 0, props := [] }

/-- A verb headword whose principal parts do not contain the stem
spelling `am` (as for real entries, the parts are full forms). -/
def entryAmo : P1.DictEntry :=
  { id := 0, pos := "V", parts := ["amo", "amare", "amavi", "amatus"], senses := ["to love"] }

/-- An addons mapping with every key absent. -/
def noAddons : P1.Addons :=
  { tackons := none, packons := none, not_packons := none, prefixes := none, suffixes := none }

/-- Data for claim C2's failing input: parsing `amo` assembles the stem
`am` against the ending `-o`, and the verb disambiguation then asks for
the index of `am` among the principal parts. -/
def dC2 : P1.PData :=
  { wordlist := [some entryAmo], wordkeys := [], stems := [("am", [stemAm])],
    uniques := [], inflects := [("1", [("o", [inflO])])], addons := noAddons }

/-- An irregular full-form entry for `abque`. -/
def uAbque : P1.Unique := { orth := "abque", pos := "INTERJ", senses := ["example"] }

/-- The enclitic `-que` as a tackon with wildcard position. -/
def tackonQue : P1.Addon := { orth := "que", pos := "X" }

/-- Addons holding only the tackon `-que`. -/
def addonsQue : P1.Addons :=
  { tackons := some [tackonQue], packons := none, not_packons := none,
    prefixes := none, suffixes := none }

/-- Data for claim C8's failing input: `abque` is a registered unique, and
splitting the tackon `-que` also yields the non-unique base `ab`. -/
def dC8 : P1.PData :=
  { wordlist := [], wordkeys := [], stems := [], uniques := [("abque", [uAbque])],
    inflects := [], addons := addonsQue }

/-- Addons for claim C5's counterexample: the tackon `-que` plus an
(empty) packon table. -/
def addonsC5 : P1.Addons :=
  { tackons := some [tackonQue], packons := some [], not_packons := none,
    prefixes := none, suffixes := none }

/-- Data for claim C5's counterexample: splitting the word `que` makes
the tackon consume the whole word. -/
def dC5 : P1.PData :=
  { wordlist := [], wordkeys := [], stems := [], uniques := [], inflects := [],
    addons := addonsC5 }

/-- Data for claim C9's witness (no tables at all). -/
def dC9 : P1.PData :=
  { wordlist := [], wordkeys := [], stems := [], uniques := [], inflects := [],
    addons := noAddons }

/-- A matched stem equal to the fourth principal part of `entryAmo`,
carrying one finite-verb and one participle ending. -/
def msAmatus : P1.MatchedStem :=
  { st := { orth := "amatus", pos := "V", n := [1, 1], form := "", wid := 0, props := [] },
    infls := [inflO, { ending := "us", pos := "VPAR", n := [1], form := "NOM S M PERF PASSIVE PPL", iid := 2 }],
    encl := none }

/-- A verb stem spelled like the last principal part of `entryAmo`, for
claim C1's witness. -/
def stemAmatus : P1.Stem :=
  { orth := "amatus", pos := "V", n := [1, 1], form := "", wid := 0, props := [] }

/-- A perfect-participle ending whose feature slice `[8:12]` is `PERF`. -/
def inflVparPerf : P1.Inflect :=
  { ending := "us", pos := "VPAR", n := [1], form := "NOM S M PERF PASSIVE PPL", iid := 2 }

/-- A participle ending whose feature slice `[8:12]` is not `PERF`. -/
def inflVparPres : P1.Inflect :=
  { ending := "ns", pos := "VPAR", n := [1], form := "NOM S X PRES ACTIVE PPL", iid := 3 }

/-- A noun ending, for claim C1's witness of a non-participle mismatch. -/
def inflNoun : P1.Inflect :=
  { ending := "a", pos := "N", n := [1, 1], form := "NOM S F", iid := 4 }

/-- An irregular full form for the P2 fixtures. -/
def u2 : P2.Unique :=
  { orth := "xy", pos := "INTERJ", n := [], form := [], senses := ["oh"] }

/-- A data layer holding only the unique `xy`, for claim C3's witness. -/
def dataW3 : P2.DataLayer :=
  { wordlist := [], wordkeys := [], stems := [("a", [])], uniques := [("xy", [u2])],
    inflects := [], empty := fun _ => [] }

/-- A matcher rejecting everything, for claim C3's witness. -/
def checkFalse : P2.Stem → P2.Inflect → Bool := fun _ _ => false

/-- A matcher accepting everything, for claim C6's witness. -/
def checkTrue : P2.Stem → P2.Inflect → Bool := fun _ _ => true

/-- The word `xy` with its unmodified form, for claim C3's witness. -/
def wordW3 : P2.Word := { text := "xy", forms := [{ text := "xy", analyses := [], enclitic := none }] }

/-- A P2 verb stem `am-`, for the C6 and C7 witnesses. -/
def stemAm2 : P2.Stem :=
  { orth := "am", pos := "V", n := [1, 1], form := "", wid := 0, props := [] }

/-- A P2 full-form stem `amo`, for the C7 witness's undeclined source. -/
def stemAmo2 : P2.Stem :=
  { orth := "amo", pos := "V", n := [1, 1], form := "", wid := 0, props := [] }

/-- A P2 ending `-o`. -/
def inflO2 : P2.Inflect :=
  { ending := "o", pos := "V", n := [1], form := ["PRES", "ACTIVE", "IND", "1", "S"], iid := 1 }

/-- A P2 zero-length verb ending. -/
def inflEmpty2 : P2.Inflect :=
  { ending := "", pos := "V", n := [1], form := ["PRES", "ACTIVE", "IND", "1", "S"], iid := 9 }

/-- A data layer for the C6 and C7 witnesses. -/
def dataW7 : P2.DataLayer :=
  { wordlist := [], wordkeys := ["amo"], stems := [("am", [stemAm2]), ("amo", [stemAmo2])],
    uniques := [], inflects := [("1", [("o", [inflO2])])],
    empty := fun pos => if pos = "V" then [inflEmpty2] else [] }

/-- A noun ending whose encoded features specify masculine gender. -/
def inflW10 : P2.Inflect :=
  { ending := "a", pos := "N", n := [1, 1], form := ["NOM", "S", "M"], iid := 5 }

/-- A noun stem whose form marker begins with `F`. -/
def stemW10 : P2.Stem :=
  { orth := "puell", pos := "N", n := [1, 1], form := "F", wid := 2, props := [] }

end WW

namespace WW

/-- Helper: looking up the key just set by a Python dict assignment
returns the assigned value. -/
theorem alookup_assocSet_self (m : List (String × P2.EnumValue)) (k : String) (v : P2.EnumValue) :
    alookup (P2.assocSet m k v) k = some v := by
  unfold P2.assocSet
  split
  · rename_i hany
    induction m with
    | nil => simp at hany
    | cons p rest ih =>
      simp only [List.map_cons]
      by_cases hp : p.1 = k
      · simp [alookup, hp]
      · simp only [if_neg hp]
        simp only [List.any_cons] at hany
        rcases Bool.or_eq_true_iff.mp hany with h | h
        · exact absurd (of_decide_eq_true h) hp
        · simpa [alookup, hp] using ih h
  · induction m with
    | nil => simp [alookup]
    | cons p rest ih =>
      rename_i hany
      simp only [List.any_cons, Bool.or_eq_true_iff, not_or] at hany
      have hp : p.1 ≠ k := fun h => hany.1 (decide_eq_true h)
      simpa [alookup, hp] using ih (by simpa using hany.2)

/-- Claim C10: for every noun analysis assembled from a stem and an
ending, when the stem's form marker is nonempty the reported Inflection's
Gender feature equals the gender denoted by the first character of the
stem's form marker, overriding whatever gender the ending's encoded
feature string specified. -/
theorem mkInflection_noun_gender_override (infl : P2.Inflect) (stem : P2.Stem)
    (c : Char) (rest : List Char) (h1 : infl.pos = "N")
    (h2 : stem.form.data = c :: rest) :
    alookup (P2.mkInflection infl stem).features "Gender" =
      some (P2.getEnumValue "Gender" c.toString) := by
  have hne : stem.form ≠ "" := by
    intro he
    rw [he] at h2
    simp at h2
  simp only [P2.mkInflection, P2.overrideFeatures, h1, hne, ne_eq, not_false_iff, and_true,
    if_true, h2]
  exact alookup_assocSet_self _ _ _


/-- Witness for C10 at a concrete noun stem with form marker `F` against
an ending specifying masculine gender. -/
theorem mkInflection_noun_gender_override_witness :
    alookup (P2.mkInflection inflW10 stemW10).features "Gender" =
      some { kind := "Gender", token := "F" } :=
  mkInflection_noun_gender_override inflW10 stemW10 'F' [] rfl rfl

/-- Claim C2 (failing input): the congruence matcher accepts the verb
stem `am` against the verb ending `-o`, yet parsing `amo` propagates the
`ValueError` that `dict_word['parts'].index(stem['st']['orth'])` raises
in `lookup_stems`, because `am` is not among the principal parts. -/
theorem lookupStems_raises_on_missing_part :
    P1.checkMatch dC2 stemAm inflO = .ok true ∧
      P1.parseResult dC2 "amo" = .error "ValueError" :=
  ⟨rfl, rfl⟩

/-- Claim C8 (failing input): `abque` has a registered unique entry, yet
`parse` returns an empty result list because the regular branch for the
later form `ab` reassigns `parse_result`, discarding the unique's
analysis. -/
theorem parseResult_drops_unique :
    alookup dC8.uniques "abque" = some [uAbque] ∧
      P1.parseResult dC8 "abque" = .ok [] :=
  ⟨rfl, rfl⟩

/-- Counterexample to claim C5 as stated: the tackon `-que` matching the
whole word `que` leaves an empty base, and the resulting Form is kept,
not discarded. -/
theorem splitFormEnclitic_keeps_empty_base :
    P1.splitFormEnclitic dC5 "que" =
      [{ base := "que", encl := none }, { base := "", encl := some tackonQue }] :=
  rfl

/-- Claim C4: on the creation path of `lookup_stems`, an analysis whose
resolved entry is a verb compares the originating stem's orthography
against the principal-part list; index 3 (the fourth principal part)
removes the finite-verb endings, any other index removes the participle
endings.  The hypothesis `pyIndex … = .ok i` states that the orthography
occurs in the list, which the claim's "its index in that list"
presupposes (its absence raises instead — see claim C2). -/
theorem disambiguateVerb_fourth_part (wrd : P1.DictEntry) (st : P1.MatchedStem)
    (i : Nat) (h1 : wrd.pos = "V")
    (h2 : pyIndex wrd.parts st.st.orth = .ok i) :
    (i = 3 → P1.disambiguateVerb wrd st =
      .ok { st with infls := st.infls.filter (fun x => decide (x.pos ≠ "V")) }) ∧
    (i ≠ 3 → P1.disambiguateVerb wrd st =
      .ok { st with infls := st.infls.filter (fun x => decide (x.pos ≠ "VPAR")) }) := by
  constructor <;> intro h3 <;>
    simp [P1.disambiguateVerb, h1, h2, h3, P1.removeExtraInfls, Bind.bind, Except.bind, Pure.pure, Except.pure]

/-- Witness for C4: the stem `amatus` is the fourth principal part of its
verb entry, so the finite-verb ending `-o` is removed and the participle
ending kept. -/
theorem disambiguateVerb_fourth_part_witness :
    P1.disambiguateVerb entryAmo msAmatus =
      .ok { msAmatus with infls := [inflVparPerf] } := by
  have h := (disambiguateVerb_fourth_part entryAmo msAmatus 3 rfl rfl).1 rfl
  simpa using h


/-- Claim C1: with differing parts of speech, `check_match` returns true
only for a verb-participle ending against a verb stem whose orthography
equals the last principal part under a perfect-tense feature slice and
the first principal part otherwise; a failed or empty dictionary lookup
and every other mismatch yield false. -/
theorem checkMatch_vpar_special_case (d : P1.PData) (stem : P1.Stem) (infl : P1.Inflect)
    (h : infl.pos ≠ stem.pos) :
    (P1.checkMatch d stem infl = .ok true →
      infl.pos = "VPAR" ∧ stem.pos = "V" ∧
        ∃ wrd, pyGet d.wordlist stem.wid = some (some wrd) ∧
          ((strSlice infl.form 8 12 = "PERF" ∧ wrd.parts.getLast? = some stem.orth) ∨
           (strSlice infl.form 8 12 ≠ "PERF" ∧ wrd.parts.head? = some stem.orth))) ∧
    ((pyGet d.wordlist stem.wid = none ∨ pyGet d.wordlist stem.wid = some none) →
      P1.checkMatch d stem infl = .ok false) ∧
    (¬ (infl.pos = "VPAR" ∧ stem.pos = "V") → P1.checkMatch d stem infl = .ok false) := by
  refine ⟨?_, ?_, ?_⟩
  · intro hT
    by_cases hv : infl.pos = "VPAR" ∧ stem.pos = "V"
    · refine ⟨hv.1, hv.2, ?_⟩
      cases hg : pyGet d.wordlist stem.wid with
      | none => simp [P1.checkMatch, h, hv, hg] at hT
      | some slot =>
        cases slot with
        | none => simp [P1.checkMatch, h, hv, hg] at hT
        | some wrd =>
          refine ⟨wrd, rfl, ?_⟩
          by_cases hs : strSlice infl.form 8 12 = "PERF"
          · left
            refine ⟨hs, ?_⟩
            cases hl : wrd.parts.getLast? with
            | none => simp [P1.checkMatch, h, hv, hg, hs, hl] at hT
            | some p =>
              simp [P1.checkMatch, h, hv, hg, hs, hl] at hT
              simp [hT]
          · right
            refine ⟨hs, ?_⟩
            cases hl : wrd.parts.head? with
            | none => simp [P1.checkMatch, h, hv, hg, hs, hl] at hT
            | some p =>
              simp [P1.checkMatch, h, hv, hg, hs, hl] at hT
              simp [hT]
    · exfalso
      have : P1.checkMatch d stem infl = .ok false := by simp [P1.checkMatch, h, hv]
      rw [this] at hT
      simp at hT
  · intro hl
    by_cases hv : infl.pos = "VPAR" ∧ stem.pos = "V"
    · rcases hl with hl | hl <;> simp [P1.checkMatch, h, hv, hl]
    · simp [P1.checkMatch, h, hv]
  · intro hv
    simp [P1.checkMatch, h, hv]

/-- Witness for C1: the verb stem `amatus` (the last principal part)
against the perfect participle ending `-us` is accepted, and the first
conjunct of the claim identifies the principal part it matched. -/
theorem checkMatch_vpar_special_case_witness :
    inflVparPerf.pos = "VPAR" ∧ stemAmatus.pos = "V" ∧
      ∃ wrd, pyGet dC2.wordlist stemAmatus.wid = some (some wrd) ∧
        ((strSlice inflVparPerf.form 8 12 = "PERF" ∧ wrd.parts.getLast? = some stemAmatus.orth) ∨
         (strSlice inflVparPerf.form 8 12 ≠ "PERF" ∧ wrd.parts.head? = some stemAmatus.orth)) :=
  (checkMatch_vpar_special_case dC2 stemAmatus inflVparPerf (by decide)).1 rfl


/-- Claim C9: reduction is one-shot — with the reduced flag set the
pipeline is the direct one; the reducer is invoked exactly when direct
matching yields zero results and the flag is unset; it strips at most the
first matching table entry from each end and re-runs the direct pipeline
once, replacing a result with no nonempty stem list by the empty set. -/
theorem analyzeForms_one_shot_reduction (d : P1.PData) (w : P1.SplitForm) :
    (P1.analyzeForms d w true = P1.analyzeFormsCore d w) ∧
    (∀ forms, P1.analyzeFormsCore d w = .ok forms → forms.length ≠ 0 →
      P1.analyzeForms d w false = .ok forms) ∧
    (P1.analyzeFormsCore d w = .ok [] → P1.analyzeForms d w false = P1.reduceF d w) ∧
    (∀ ps s, P1.stripFront ps s =
      (match ps.find? (fun p => startsW s p.orth) with
       | some p => strDropLeft s p.orth.data.length
       | none => s)) ∧
    (∀ es s, P1.stripBack es s =
      (match es.find? (fun e => endsW s e.orth) with
       | some e => strDropRight s e.orth.data.length
       | none => s)) ∧
    (∀ out, P1.analyzeFormsTrue d
        { w with base := P1.stripBack (d.addons.suffixes.getD [])
                           (P1.stripFront (d.addons.prefixes.getD []) w.base) } = .ok out →
      P1.reduceF d w =
        .ok (if out.length ≠ 0 ∧ ¬ (out.any fun r => decide (r.stems.length > 0)) = true
             then [] else out)) := by
  refine ⟨?_, ?_, ?_, ?_, ?_, ?_⟩
  · show P1.analyzeFormsTrue d w = P1.analyzeFormsCore d w
    unfold P1.analyzeFormsTrue
    cases hc : P1.analyzeFormsCore d w with
    | error e => rfl
    | ok forms =>
      by_cases hn : forms.length ≠ 0
      · simp [Bind.bind, Except.bind, hn, Pure.pure, Except.pure]
      · simp only [ne_eq, not_not, List.length_eq_zero] at hn
        simp [Bind.bind, Except.bind, hn, Pure.pure, Except.pure]
  · intro forms hc hn
    unfold P1.analyzeForms
    simp [Bind.bind, Except.bind, hc, hn, Pure.pure, Except.pure]
  · intro hc
    unfold P1.analyzeForms
    simp [Bind.bind, Except.bind, hc, Pure.pure, Except.pure]
  · intro ps s
    induction ps with
    | nil => rfl
    | cons p rest ih =>
      by_cases hp : startsW s p.orth
      · simp [P1.stripFront, hp, List.find?]
      · simp only [List.find?, hp, Bool.false_eq_true]
        simpa [P1.stripFront, hp] using ih
  · intro es s
    induction es with
    | nil => rfl
    | cons e rest ih =>
      by_cases he : endsW s e.orth
      · simp [P1.stripBack, he, List.find?]
      · simp only [List.find?, he, Bool.false_eq_true]
        simpa [P1.stripBack, he] using ih
  · intro out hT
    unfold P1.reduceF
    simp only [hT, Bind.bind, Except.bind]
    split
    · rename_i hcond
      simp only [if_pos hcond, Pure.pure, Except.pure]
    · rename_i hcond
      simp only [if_neg hcond, Pure.pure, Except.pure]

/-- Witness for C9 at a concrete parser state. -/
theorem analyzeForms_one_shot_reduction_witness :
    P1.analyzeForms dC9 { base := "ab", encl := none } true =
      P1.analyzeFormsCore dC9 { base := "ab", encl := none } :=
  (analyzeForms_one_shot_reduction dC9 { base := "ab", encl := none }).1


/-- Claim C5 (amended): the segmenter yields the unmodified text first,
then one Form per matching tackon suffix except for the literal text
`est` — with no empty-base discard in this branch — and finally at most
one Form from the packon table (text starting with `qu`) or otherwise the
not-packon table: the first suffix match that leaves a nonempty base,
empty-base matches being skipped without ending the scan. -/
theorem splitFormEnclitic_characterization (d : P1.PData) (s : String) :
    P1.splitFormEnclitic d s =
      { base := s, encl := none } ::
        (((if s = "est" then [] else
            (d.addons.tackons.getD []).filter (fun e => endsW s e.orth)).map
              (fun e => { base := strDropRight s e.orth.data.length, encl := some e })) ++
          (match ((if startsW s "qu" then d.addons.packons else d.addons.not_packons).getD []).find?
              (fun e => endsW s e.orth && decide (strDropRight s e.orth.data.length ≠ "")) with
           | some e => [{ base := strDropRight s e.orth.data.length, encl := some e }]
           | none => [])) := by
  have htack : ∀ l : List P1.Addon, P1.tackonLoop s l =
      (if s = "est" then [] else l.filter (fun e => endsW s e.orth)).map
        (fun e => ({ base := strDropRight s e.orth.data.length, encl := some e } : P1.SplitForm)) := by
    intro l
    by_cases hs : s = "est"
    · subst hs
      simp only [if_pos rfl, List.map_nil]
      induction l with
      | nil => rfl
      | cons e rest ih =>
        by_cases he : endsW "est" e.orth <;> simp [P1.tackonLoop, he, ih]
    · simp only [if_neg hs]
      induction l with
      | nil => rfl
      | cons e rest ih =>
        by_cases he : endsW s e.orth <;> simp [P1.tackonLoop, he, hs, ih, List.filter]
  have hpack : ∀ l : List P1.Addon, P1.packLoop s l =
      (match l.find? (fun e => endsW s e.orth && decide (strDropRight s e.orth.data.length ≠ "")) with
       | some e => [({ base := strDropRight s e.orth.data.length, encl := some e } : P1.SplitForm)]
       | none => []) := by
    intro l
    induction l with
    | nil => rfl
    | cons e rest ih =>
      by_cases he : endsW s e.orth
      · by_cases hb : strDropRight s e.orth.length = ""
        · simp [P1.packLoop, he, hb, List.find?_cons, ih]
        · simp [P1.packLoop, he, hb, List.find?_cons]
      · simp [P1.packLoop, he, List.find?_cons, ih]
  simp only [P1.splitFormEnclitic, htack, hpack]
  simp


/-- Helper: a successful pass of the form loop determines the per-form
surviving analyses, computed independently per form. -/
theorem survivingLists_of_processForms (data : P2.DataLayer)
    (check : P2.Stem → P2.Inflect → Bool) :
    ∀ (fs : List P2.Form) (gs : List P2.Form),
      P2.processForms data check true fs = .ok gs →
      P2.survivingLists data check fs = .ok (gs.map (fun g => g.analyses.map Prod.snd)) := by
  intro fs
  induction fs with
  | nil =>
    intro gs h
    simp only [P2.processForms] at h
    cases h
    rfl
  | cons f rest ih =>
    intro gs h
    simp only [P2.processForms] at h
    cases hpf : P2.processForm data check true f with
    | error e => rw [hpf] at h; simp [Bind.bind, Except.bind] at h
    | ok f' =>
      rw [hpf] at h
      cases hpr : P2.processForms data check true rest with
      | error e => rw [hpr] at h; simp [Bind.bind, Except.bind] at h
      | ok rest' =>
        rw [hpr] at h
        simp only [Bind.bind, Except.bind, Pure.pure, Except.pure, Except.ok.injEq] at h
        subst h
        simp only [P2.survivingLists, P2.survivingAnalyses, hpf, ih rest' hpr,
          Bind.bind, Except.bind, Pure.pure, Except.pure, List.map_cons]

/-- Helper: dropping the forms with no analyses does not change the
flattened union. -/
theorem flatMap_filter_nonempty (gs : List P2.Form) :
    (gs.filter (fun f => decide (f.analyses.length ≠ 0))).flatMap
        (fun f => f.analyses.map Prod.snd) =
      (gs.map (fun f => f.analyses.map Prod.snd)).flatten := by
  induction gs with
  | nil => rfl
  | cons g rest ih =>
    by_cases hg : g.analyses.length ≠ 0
    · simp [List.filter, hg]
      simpa using ih
    · simp only [ne_eq, not_not, List.length_eq_zero] at hg
      simp [List.filter, hg]
      simpa using ih

/-- Claim C3: a parsed Word's final analyses are the union, in form
order, of the surviving analyses of its Forms, each Form filtered
independently; no form's analyses are lost when a later form is
processed. -/
theorem wordAnalyse_union_of_forms (data : P2.DataLayer)
    (check : P2.Stem → P2.Inflect → Bool) (w w' : P2.Word)
    (ls : List (List P2.Analysis))
    (h1 : P2.wordAnalyse data check true w = .ok w')
    (h2 : P2.survivingLists data check w.forms = .ok ls) :
    P2.getAnalyses w' = ls.flatten := by
  simp only [P2.wordAnalyse] at h1
  cases hp : P2.processForms data check true w.forms with
  | error e => rw [hp] at h1; simp [Bind.bind, Except.bind] at h1
  | ok gs =>
    rw [hp] at h1
    simp only [Bind.bind, Except.bind, Pure.pure, Except.pure, Except.ok.injEq] at h1
    subst h1
    have hs := survivingLists_of_processForms data check w.forms gs hp
    rw [hs] at h2
    cases h2
    simpa [P2.getAnalyses] using flatMap_filter_nonempty gs

/-- Witness for C3: the word `xy` with one form whose unique analysis
survives. -/
theorem wordAnalyse_union_of_forms_witness :
    P2.getAnalyses
        { text := "xy",
          forms := [{ text := "xy",
                      analyses := [(0, { lexeme := P2.mkUniqueLexeme u2, root := "",
                                         inflections := [P2.mkUniqueInflection u2],
                                         enclitic := none })],
                      enclitic := none }] } =
      [[{ lexeme := P2.mkUniqueLexeme u2, root := "",
          inflections := [P2.mkUniqueInflection u2], enclitic := none }]].flatten :=
  wordAnalyse_union_of_forms dataW3 checkFalse wordW3 _ _ rfl rfl


/-- Claim C7: an ending is tried for a base exactly when it is a
zero-length ending for the part of speech of some stem spelled exactly
like the base (the base being a known full form), or is registered under
a length-and-suffix key for some suffix length from 1 to
`min(7, length - 1)`. -/
theorem viableInflections_mem (data : P2.DataLayer) (text : String) (i : P2.Inflect) :
    i ∈ P2.viableInflections data text ↔
      (data.wordkeys.contains text = true ∧
        ∃ sl, alookup data.stems text = some sl ∧ ∃ st ∈ sl, i ∈ data.empty st.pos) ∨
      (∃ l, 1 ≤ l ∧ l ≤ min 7 (strLen text - 1) ∧
        ∃ bylen, alookup data.inflects (Nat.repr l) = some bylen ∧
          ∃ grp, alookup bylen (strTakeRight text l) = some grp ∧ i ∈ grp) := by
  have hstep : ∀ (L : List Nat) (acc : List P2.Inflect),
      i ∈ L.foldl (fun acc l =>
        match alookup data.inflects (Nat.repr l) with
        | none => acc
        | some bylen =>
          match alookup bylen (strTakeRight text l) with
          | none => acc
          | some grp => acc ++ grp) acc ↔
      i ∈ acc ∨ ∃ l ∈ L, ∃ bylen, alookup data.inflects (Nat.repr l) = some bylen ∧
        ∃ grp, alookup bylen (strTakeRight text l) = some grp ∧ i ∈ grp := by
    intro L
    induction L with
    | nil => intro acc; simp
    | cons l rest ih =>
      intro acc
      rw [List.foldl_cons, ih]
      cases h1 : alookup data.inflects (Nat.repr l) with
      | none =>
        simp only [h1]
        constructor
        · rintro (h | h)
          · exact Or.inl h
          · exact Or.inr (by rcases h with ⟨l', hl', rest'⟩; exact ⟨l', List.mem_cons_of_mem _ hl', rest'⟩)
        · rintro (h | ⟨l', hl', hrest⟩)
          · exact Or.inl h
          · rcases List.mem_cons.mp hl' with rfl | hl'
            · rcases hrest with ⟨bylen, hb, _⟩
              rw [h1] at hb
              cases hb
            · exact Or.inr ⟨l', hl', hrest⟩
      | some bylen =>
        cases h2 : alookup bylen (strTakeRight text l) with
        | none =>
          simp only [h1, h2]
          constructor
          · rintro (h | h)
            · exact Or.inl h
            · exact Or.inr (by rcases h with ⟨l', hl', rest'⟩; exact ⟨l', List.mem_cons_of_mem _ hl', rest'⟩)
          · rintro (h | ⟨l', hl', hrest⟩)
            · exact Or.inl h
            · rcases List.mem_cons.mp hl' with rfl | hl'
              · rcases hrest with ⟨bylen', hb, grp, hg, _⟩
                rw [h1] at hb
                cases hb
                rw [h2] at hg
                cases hg
              · exact Or.inr ⟨l', hl', hrest⟩
        | some grp =>
          simp only [h1, h2, List.mem_append]
          constructor
          · rintro ((h | h) | h)
            · exact Or.inl h
            · exact Or.inr ⟨l, List.mem_cons_self _ _, bylen, h1, grp, h2, h⟩
            · exact Or.inr (by rcases h with ⟨l', hl', rest'⟩; exact ⟨l', List.mem_cons_of_mem _ hl', rest'⟩)
          · rintro (h | ⟨l', hl', hrest⟩)
            · exact Or.inl (Or.inl h)
            · rcases List.mem_cons.mp hl' with rfl | hl'
              · rcases hrest with ⟨bylen', hb, grp', hg, hi⟩
                rw [h1] at hb
                cases hb
                rw [h2] at hg
                cases hg
                exact Or.inl (Or.inr hi)
              · exact Or.inr ⟨l', hl', hrest⟩
  have hrange : ∀ l : Nat, l ∈ List.range' 1 (min 8 (strLen text) - 1) ↔
      1 ≤ l ∧ l ≤ min 7 (strLen text - 1) := by
    intro l
    rw [List.mem_range']
    constructor
    · rintro ⟨j, hj, rfl⟩
      omega
    · rintro ⟨h1, h2⟩
      exact ⟨l - 1, by omega, by omega⟩
  have h0 : i ∈ (if data.wordkeys.contains text = true then
      match alookup data.stems text with
      | none => ([] : List P2.Inflect)
      | some stem_list => ((stem_list.map (fun x => x.pos)).dedup).flatMap data.empty
      else []) ↔
      (data.wordkeys.contains text = true ∧
        ∃ sl, alookup data.stems text = some sl ∧ ∃ st ∈ sl, i ∈ data.empty st.pos) := by
    by_cases hc : data.wordkeys.contains text = true
    · rw [if_pos hc]
      cases hs : alookup data.stems text with
      | none =>
        show i ∈ ([] : List P2.Inflect) ↔ _
        simp only [hc, true_and, List.not_mem_nil, false_iff]
        rintro ⟨sl, hsl, _⟩
        cases hsl
      | some stem_list =>
        show i ∈ ((stem_list.map (fun x => x.pos)).dedup).flatMap data.empty ↔ _
        rw [List.mem_flatMap]
        simp only [hc, true_and]
        constructor
        · rintro ⟨p, hp, hi⟩
          rw [List.mem_dedup, List.mem_map] at hp
          rcases hp with ⟨st, hst, rfl⟩
          exact ⟨stem_list, rfl, st, hst, hi⟩
        · rintro ⟨sl, hsl, st, hst, hi⟩
          cases hsl
          exact ⟨st.pos, by rw [List.mem_dedup, List.mem_map]; exact ⟨st, hst, rfl⟩, hi⟩
    · rw [if_neg hc]
      simp only [List.not_mem_nil, false_iff]
      rintro (⟨hcc, _⟩ : _ ∧ _)
      exact hc hcc
  rw [P2.viableInflections]
  rw [hstep, h0]
  constructor
  · rintro (h | ⟨l, hl, hrest⟩)
    · exact Or.inl h
    · exact Or.inr ⟨l, ((hrange l).mp hl).1, ((hrange l).mp hl).2, hrest⟩
  · rintro (h | ⟨l, h1, h2, hrest⟩)
    · exact Or.inl h
    · exact Or.inr ⟨l, (hrange l).mpr ⟨h1, h2⟩, hrest⟩

/-- Witness for C7: the ending `-o` is tried for the base `amo` through
the suffix table at length 1. -/
theorem viableInflections_mem_witness :
    inflO2 ∈ P2.viableInflections dataW7 "amo" :=
  (viableInflections_mem dataW7 "amo" inflO2).mpr
    (Or.inr ⟨1, by decide, by decide, [("o", [inflO2])], rfl, [inflO2], rfl, by decide⟩)


/-- Value equality of inflections is symmetric. -/
theorem inflEqb_symm {a b : P2.Inflection} (h : P2.inflEqb a b = true) :
    P2.inflEqb b a = true := by
  simp only [P2.inflEqb, P2.dictEqb, Bool.and_eq_true, decide_eq_true_eq] at h ⊢
  obtain ⟨⟨⟨h1, h2⟩, h3⟩, h4, h5⟩ := h
  exact ⟨⟨⟨h1.symm, h2.symm⟩, h3.symm⟩, h5, h4⟩

/-- `insertMatch` leaves the key list unchanged or appends the fresh key. -/
theorem insertMatch_keys (m : List (Nat × P2.Analysis)) (wid : Nat)
    (lex : P2.Lexeme) (x : P2.Inflection) :
    (P2.insertMatch m wid lex x).map Prod.fst = m.map Prod.fst ∨
      ((P2.insertMatch m wid lex x).map Prod.fst = m.map Prod.fst ++ [wid] ∧
        wid ∉ m.map Prod.fst) := by
  unfold P2.insertMatch
  split
  · left
    rw [List.map_map]
    apply List.map_congr_left
    intro p hp
    by_cases hw : p.1 = wid <;> simp [hw]
  · right
    rename_i hany
    constructor
    · simp
    · intro hmem
      apply hany
      rcases List.mem_map.mp hmem with ⟨q, hq, hq1⟩
      exact List.any_eq_true.mpr ⟨q, hq, decide_eq_true hq1⟩

/-- `insertMatch` preserves distinctness of the headword keys. -/
theorem insertMatch_keys_nodup (m : List (Nat × P2.Analysis)) (wid : Nat)
    (lex : P2.Lexeme) (x : P2.Inflection) (h : (m.map Prod.fst).Nodup) :
    ((P2.insertMatch m wid lex x).map Prod.fst).Nodup := by
  rcases insertMatch_keys m wid lex x with hk | ⟨hk, hnm⟩
  · rw [hk]; exact h
  · rw [hk]
    simp only [List.nodup_append, List.nodup_cons, List.not_mem_nil, not_false_iff,
      List.nodup_nil, and_true, true_and]
    exact ⟨h, fun a ha hb => by rw [List.mem_singleton] at hb; subst hb; exact hnm ha⟩

/-- `insertMatch` preserves pairwise value-distinctness of every entry's
inflection list. -/
theorem insertMatch_pairwise (m : List (Nat × P2.Analysis)) (wid : Nat)
    (lex : P2.Lexeme) (x : P2.Inflection)
    (h : ∀ p ∈ m, p.2.inflections.Pairwise (fun a b => P2.inflEqb a b = false)) :
    ∀ p ∈ P2.insertMatch m wid lex x,
      p.2.inflections.Pairwise (fun a b => P2.inflEqb a b = false) := by
  unfold P2.insertMatch
  split
  · intro p hp
    rcases List.mem_map.mp hp with ⟨q, hq, rfl⟩
    by_cases hw : q.1 = wid
    · by_cases hdup : (q.2.inflections.any fun i => P2.inflEqb x i) = true
      · simp only [if_pos hw, if_pos hdup]
        exact h q hq
      · simp only [if_pos hw, if_neg hdup]
        rw [List.pairwise_append]
        refine ⟨h q hq, List.pairwise_singleton _ _, ?_⟩
        intro a ha b hb
        rw [List.mem_singleton] at hb
        subst hb
        by_contra hab
        rw [Bool.not_eq_false] at hab
        have hx := List.any_eq_true.mpr ⟨a, ha, inflEqb_symm hab⟩
        exact hdup hx
    · simp only [if_neg hw]
      exact h q hq
  · intro p hp
    rcases List.mem_append.mp hp with hp | hp
    · exact h p hp
    · rw [List.mem_singleton] at hp
      subst hp
      exact List.pairwise_singleton _ _


/-- The inserted inflection is represented under its headword id. -/
theorem insertMatch_reprIn_self (m : List (Nat × P2.Analysis)) (wid : Nat)
    (lex : P2.Lexeme) (x : P2.Inflection) :
    reprIn (P2.insertMatch m wid lex x) wid x := by
  unfold P2.insertMatch
  split
  · rename_i hany
    rcases List.any_eq_true.mp hany with ⟨q, hq, hq1⟩
    have hqw : q.1 = wid := of_decide_eq_true hq1
    refine ⟨_, List.mem_map.mpr ⟨q, hq, rfl⟩, ?_⟩
    by_cases hdup : (q.2.inflections.any fun i => P2.inflEqb x i) = true
    · simp only [if_pos hqw, if_pos hdup]
      rcases List.any_eq_true.mp hdup with ⟨y, hy, hxy⟩
      exact ⟨hqw, y, hy, Or.inr hxy⟩
    · simp only [if_pos hqw, if_neg hdup]
      exact ⟨hqw, x, List.mem_append_right _ (List.mem_singleton.mpr rfl), Or.inl rfl⟩
  · refine ⟨(wid, { lexeme := lex, root := "", inflections := [x], enclitic := none }),
      List.mem_append_right _ (List.mem_singleton.mpr rfl), rfl, x,
      List.mem_singleton.mpr rfl, Or.inl rfl⟩

/-- `insertMatch` never loses a represented inflection. -/
theorem insertMatch_reprIn_mono (m : List (Nat × P2.Analysis)) (wid : Nat)
    (lex : P2.Lexeme) (z : P2.Inflection) (w0 : Nat) (x : P2.Inflection)
    (h : reprIn m w0 x) : reprIn (P2.insertMatch m wid lex z) w0 x := by
  rcases h with ⟨q, hq, hq1, y, hy, hxy⟩
  unfold P2.insertMatch
  split
  · refine ⟨_, List.mem_map.mpr ⟨q, hq, rfl⟩, ?_⟩
    by_cases hw : q.1 = wid
    · by_cases hdup : (q.2.inflections.any fun i => P2.inflEqb z i) = true
      · simp only [if_pos hw, if_pos hdup]
        exact ⟨hw ▸ hq1, y, hy, hxy⟩
      · simp only [if_pos hw, if_neg hdup]
        exact ⟨hw ▸ hq1, y, List.mem_append_left _ hy, hxy⟩
    · simp only [if_neg hw]
      exact ⟨hq1, y, hy, hxy⟩
  · exact ⟨q, List.mem_append_left _ hq, hq1, y, hy, hxy⟩


/-- One ending's pass (`msiStep`) preserves key distinctness. -/
theorem msiStep_keys_nodup (check : P2.Stem → P2.Inflect → Bool) (data : P2.DataLayer)
    (text : String) (infl : P2.Inflect) (m : List (Nat × P2.Analysis))
    (h : (m.map Prod.fst).Nodup) :
    ((P2.msiStep check data text m infl).map Prod.fst).Nodup := by
  unfold P2.msiStep
  cases WW.alookup data.stems (P2.stripEnding text infl) with
  | none => exact h
  | some sl =>
    dsimp only
    induction sl generalizing m with
    | nil => exact h
    | cons st rest ih =>
      rw [List.foldl_cons]
      apply ih
      by_cases hc : check st infl = true
      · rw [if_pos hc]
        exact insertMatch_keys_nodup _ _ _ _ h
      · rw [if_neg hc]
        exact h

/-- One ending's pass preserves pairwise value-distinctness. -/
theorem msiStep_pairwise (check : P2.Stem → P2.Inflect → Bool) (data : P2.DataLayer)
    (text : String) (infl : P2.Inflect) (m : List (Nat × P2.Analysis))
    (h : ∀ p ∈ m, p.2.inflections.Pairwise (fun a b => P2.inflEqb a b = false)) :
    ∀ p ∈ P2.msiStep check data text m infl,
      p.2.inflections.Pairwise (fun a b => P2.inflEqb a b = false) := by
  unfold P2.msiStep
  cases WW.alookup data.stems (P2.stripEnding text infl) with
  | none => exact h
  | some sl =>
    dsimp only
    induction sl generalizing m with
    | nil => exact h
    | cons st rest ih =>
      rw [List.foldl_cons]
      apply ih
      by_cases hc : check st infl = true
      · rw [if_pos hc]
        exact insertMatch_pairwise _ _ _ _ h
      · rw [if_neg hc]
        exact h

/-- One ending's pass never loses a represented inflection. -/
theorem msiStep_reprIn_mono (check : P2.Stem → P2.Inflect → Bool) (data : P2.DataLayer)
    (text : String) (infl : P2.Inflect) (m : List (Nat × P2.Analysis))
    (w0 : Nat) (x : P2.Inflection) (h : reprIn m w0 x) :
    reprIn (P2.msiStep check data text m infl) w0 x := by
  unfold P2.msiStep
  cases WW.alookup data.stems (P2.stripEnding text infl) with
  | none => exact h
  | some sl =>
    dsimp only
    induction sl generalizing m with
    | nil => exact h
    | cons st rest ih =>
      rw [List.foldl_cons]
      apply ih
      by_cases hc : check st infl = true
      · rw [if_pos hc]
        exact insertMatch_reprIn_mono _ _ _ _ _ _ h
      · rw [if_neg hc]
        exact h

/-- One ending's pass represents every accepted stem's inflection. -/
theorem msiStep_reprIn_accept (check : P2.Stem → P2.Inflect → Bool) (data : P2.DataLayer)
    (text : String) (infl : P2.Inflect) (m : List (Nat × P2.Analysis))
    (sl : List P2.Stem) (hs : WW.alookup data.stems (P2.stripEnding text infl) = some sl)
    (stem : P2.Stem) (hmem : stem ∈ sl) (hc : check stem infl = true) :
    reprIn (P2.msiStep check data text m infl) stem.wid (P2.mkInflection infl stem) := by
  unfold P2.msiStep
  rw [hs]
  clear hs
  dsimp only
  induction sl generalizing m with
  | nil => cases hmem
  | cons st rest ih =>
    rw [List.foldl_cons]
    rcases List.mem_cons.mp hmem with rfl | hmem'
    · rw [if_pos hc]
      have hself := insertMatch_reprIn_self m stem.wid (P2.mkLexeme stem) (P2.mkInflection infl stem)
      -- carry the representation through the remaining stems
      clear hmem ih
      generalize P2.insertMatch m stem.wid (P2.mkLexeme stem) (P2.mkInflection infl stem) = m' at hself ⊢
      induction rest generalizing m' with
      | nil => exact hself
      | cons st2 rest2 ih2 =>
        rw [List.foldl_cons]
        apply ih2
        by_cases hc2 : check st2 infl = true
        · rw [if_pos hc2]
          exact insertMatch_reprIn_mono _ _ _ _ _ _ hself
        · rw [if_neg hc2]
          exact hself
    · exact ih _ hmem'


/-- The full assembler fold preserves key distinctness. -/
theorem msiFold_keys_nodup (check : P2.Stem → P2.Inflect → Bool) (data : P2.DataLayer)
    (text : String) :
    ∀ (viable : List P2.Inflect) (m : List (Nat × P2.Analysis)),
      (m.map Prod.fst).Nodup →
      ((viable.foldl (P2.msiStep check data text) m).map Prod.fst).Nodup := by
  intro viable
  induction viable with
  | nil => intro m h; exact h
  | cons i0 rest ih =>
    intro m h
    rw [List.foldl_cons]
    exact ih _ (msiStep_keys_nodup check data text i0 m h)

/-- The full assembler fold preserves pairwise value-distinctness. -/
theorem msiFold_pairwise (check : P2.Stem → P2.Inflect → Bool) (data : P2.DataLayer)
    (text : String) :
    ∀ (viable : List P2.Inflect) (m : List (Nat × P2.Analysis)),
      (∀ p ∈ m, p.2.inflections.Pairwise (fun a b => P2.inflEqb a b = false)) →
      ∀ p ∈ viable.foldl (P2.msiStep check data text) m,
        p.2.inflections.Pairwise (fun a b => P2.inflEqb a b = false) := by
  intro viable
  induction viable with
  | nil => intro m h; exact h
  | cons i0 rest ih =>
    intro m h
    rw [List.foldl_cons]
    exact ih _ (msiStep_pairwise check data text i0 m h)

/-- The full assembler fold never loses a represented inflection. -/
theorem msiFold_reprIn_mono (check : P2.Stem → P2.Inflect → Bool) (data : P2.DataLayer)
    (text : String) (w0 : Nat) (x : P2.Inflection) :
    ∀ (viable : List P2.Inflect) (m : List (Nat × P2.Analysis)),
      reprIn m w0 x →
      reprIn (viable.foldl (P2.msiStep check data text) m) w0 x := by
  intro viable
  induction viable with
  | nil => intro m h; exact h
  | cons i0 rest ih =>
    intro m h
    rw [List.foldl_cons]
    exact ih _ (msiStep_reprIn_mono check data text i0 m w0 x h)

/-- Claim C6: the assembled analyses map has at most one Analysis per
headword id; each congruent (stem, ending) pair is represented, by value,
under its headword's single Analysis; and no ending equal by value to
another appears twice in the same Analysis's inflection list. -/
theorem matchStemsInflections_assembler (check : P2.Stem → P2.Inflect → Bool)
    (data : P2.DataLayer) (text : String) (viable : List P2.Inflect) :
    ((P2.matchStemsInflections check data text viable).map Prod.fst).Nodup ∧
    (∀ p ∈ P2.matchStemsInflections check data text viable,
      p.2.inflections.Pairwise (fun a b => P2.inflEqb a b = false)) ∧
    (∀ infl ∈ viable, ∀ sl,
      alookup data.stems (P2.stripEnding text infl) = some sl →
      ∀ stem ∈ sl, check stem infl = true →
        reprIn (P2.matchStemsInflections check data text viable) stem.wid
          (P2.mkInflection infl stem)) := by
  refine ⟨?_, ?_, ?_⟩
  · exact msiFold_keys_nodup check data text viable [] List.nodup_nil
  · exact msiFold_pairwise check data text viable [] (fun p hp => absurd hp (List.not_mem_nil p))
  · intro infl hinfl sl hs stem hstem hc
    unfold P2.matchStemsInflections
    rcases List.append_of_mem hinfl with ⟨l1, l2, rfl⟩
    rw [List.foldl_append, List.foldl_cons]
    exact msiFold_reprIn_mono check data text stem.wid (P2.mkInflection infl stem) l2 _
      (msiStep_reprIn_accept check data text infl _ sl hs stem hstem hc)

/-- Witness for C6 at a concrete assembly: key distinctness of the map
built for `amo` from the ending `-o`. -/
theorem matchStemsInflections_assembler_witness :
    ((P2.matchStemsInflections checkTrue dataW7 "amo" [inflO2]).map Prod.fst).Nodup :=
  (matchStemsInflections_assembler checkTrue dataW7 "amo" [inflO2]).1

end WW
